import Mathlib

/-!
Verification of the `udigest` canonical encoding engine.

We give a shallow embedding of the encoding core found in
`src/udigest/src/encoding.rs` and of the primitive canonicalization rules
found in `src/udigest/src/lib.rs`.  Bytes are modelled as `Nat` (every byte
produced by the code is `< 256`); an append-only `Buffer` is modelled as a
`List Nat` that is threaded explicitly through each operation; a Rust `usize`
is a natural number below `2 ^ 64` (the code targets 64-bit platforms:
`usize::to_be_bytes` is 8 bytes long).
-/

namespace Udigest

/-- Control symbol (`src/udigest/src/encoding.rs`). -/
def LIST : Nat := 1
/-- Control symbol (`src/udigest/src/encoding.rs`). -/
def LIST_CTX : Nat := 2
/-- Control symbol (`src/udigest/src/encoding.rs`). -/
def LEAF : Nat := 3
/-- Control symbol (`src/udigest/src/encoding.rs`). -/
def LEAF_CTX : Nat := 4
/-- Control symbol (`src/udigest/src/encoding.rs`). -/
def LEN_32 : Nat := 5
/-- Control symbol (`src/udigest/src/encoding.rs`). -/
def BIGLEN : Nat := 6

/-- Number of bytes of a `usize` (the crate is exercised on 64-bit platforms;
`usize::to_be_bytes` yields 8 bytes). -/
def USIZE_BYTES : Nat := 8

/-- Upper bound (exclusive) of `usize` values. -/
def USIZE_BOUND : Nat := 2 ^ 64

/-- Big-endian byte representation on exactly `w` bytes, the model of
`to_be_bytes` for a `w`-byte unsigned integer.  The represented value is
`n % 256 ^ w`; all integers fed to it by the code satisfy `n < 256 ^ w`. -/
def toBeBytes : Nat → Nat → List Nat
  | 0, _ => []
  | w + 1, n => toBeBytes w (n / 256) ++ [n % 256]

/-- Model of `iter().take_while(|b| **b == 0)` followed by slicing the rest:
drops the leading zero bytes. -/
def stripLeadingZeros (bs : List Nat) : List Nat :=
  bs.dropWhile (fun b => b == 0)

/-- Function `encode_len` (`src/udigest/src/encoding.rs`, lines 454-470): writes the
length `len` to the buffer.  If `len` fits in a `u32` it is written as 4
big-endian bytes followed by `LEN_32`; otherwise the big-endian bytes of the
`usize` with leading zeroes stripped are written, followed by the count of
those bytes and `BIGLEN`. -/
def encode_len (buffer : List Nat) (len : Nat) : List Nat :=
  if len ≤ 0xFFFFFFFF then
    buffer ++ toBeBytes 4 len ++ [LEN_32]
  else
    let be := toBeBytes USIZE_BYTES len
    let stripped := stripLeadingZeros be
    buffer ++ stripped ++ [stripped.length, BIGLEN]

/-- State of the `EncodeLeaf` encoder (`src/udigest/src/encoding.rs`): the
running length of the accumulated content and the optional
domain-separation tag.  The borrowed buffer is threaded separately. -/
structure EncodeLeaf where
  len : Nat
  tag : Option (List Nat)
deriving DecidableEq

/-- Builds `EncodeLeaf::new`. -/
def EncodeLeaf.new : EncodeLeaf := { len := 0, tag := none }

/-- Builds `EncodeLeaf::set_tag`. -/
def EncodeLeaf.set_tag (s : EncodeLeaf) (t : List Nat) : EncodeLeaf :=
  { s with tag := some t }

/-- Applies `set_tag` when a tag is present (helper for driving encoders). -/
def EncodeLeaf.set_tag_opt (s : EncodeLeaf) : Option (List Nat) → EncodeLeaf
  | some t => s.set_tag t
  | none => s

/-- Builds `EncodeLeaf::update`: forwards the bytes to the buffer and grows the
running length. -/
def EncodeLeaf.update (s : EncodeLeaf) (buffer bytes : List Nat) :
    List Nat × EncodeLeaf :=
  (buffer ++ bytes, { s with len := s.len + bytes.length })

/-- Builds `Drop for EncodeLeaf` (`src/udigest/src/encoding.rs`, lines
360-373): writes the accumulated length, then either the tag, the tag length
and `LEAF_CTX`, or the plain `LEAF` symbol. -/
def EncodeLeaf.drop (s : EncodeLeaf) (buffer : List Nat) : List Nat :=
  let buffer1 := encode_len buffer s.len
  match s.tag with
  | some t => encode_len (buffer1 ++ t) t.length ++ [LEAF_CTX]
  | none => buffer1 ++ [LEAF]

/-- State of the `EncodeList` encoder (`src/udigest/src/encoding.rs`): the
running item count and the optional domain-separation tag. -/
structure EncodeList where
  len : Nat
  tag : Option (List Nat)
deriving DecidableEq

/-- Builds `EncodeList::new`. -/
def EncodeList.new : EncodeList := { len := 0, tag := none }

/-- Builds `EncodeList::set_tag`. -/
def EncodeList.set_tag (s : EncodeList) (t : List Nat) : EncodeList :=
  { s with tag := some t }

/-- Applies `set_tag` when a tag is present (helper for driving encoders). -/
def EncodeList.set_tag_opt (s : EncodeList) : Option (List Nat) → EncodeList
  | some t => s.set_tag t
  | none => s

/-- Builds `EncodeList::add_item`: bumps the item counter (the returned fresh
`EncodeValue` has no state of its own). -/
def EncodeList.add_item (s : EncodeList) : EncodeList :=
  { s with len := s.len + 1 }

/-- Builds `Drop for EncodeList` (`src/udigest/src/encoding.rs`, lines
435-448): writes the item count, then either the tag, the tag length and
`LIST_CTX`, or the plain `LIST` symbol. -/
def EncodeList.drop (s : EncodeList) (buffer : List Nat) : List Nat :=
  let buffer1 := encode_len buffer s.len
  match s.tag with
  | some t => encode_len (buffer1 ++ t) t.length ++ [LIST_CTX]
  | none => buffer1 ++ [LIST]

/-- A logical value being encoded: a leaf (raw bytestring) or an ordered
list of values.  This is the single recursive type the grammar of
`src/udigest/src/encoding.rs` is defined over. -/
inductive Value where
  | leaf : List Nat → Value
  | list : List Value → Value

mutual

/-- Drives the encoders of `src/udigest/src/encoding.rs` to encode one
`Value` into the buffer: a leaf is fed to a fresh `EncodeLeaf` (optionally
tagged) which is then dropped; a list encodes each item through
`add_item` into the same buffer and then drops the `EncodeList`. -/
def encodeValue (buffer : List Nat) (tag : Option (List Nat)) : Value → List Nat
  | .leaf bs =>
    let s := EncodeLeaf.new.set_tag_opt tag
    let p := s.update buffer bs
    p.2.drop p.1
  | .list vs =>
    let s := EncodeList.new.set_tag_opt tag
    let p := encodeListItems buffer s vs
    p.2.drop p.1

/-- Encodes the items of a list one by one: each item bumps the counter via
`add_item` and is encoded (untagged) into the shared buffer. -/
def encodeListItems (buffer : List Nat) (s : EncodeList) :
    List Value → List Nat × EncodeList
  | [] => (buffer, s)
  | v :: vs => encodeListItems (encodeValue buffer none v) s.add_item vs

end

/-! ### Pure view of the byte stream

Every operation above only appends to the buffer, so each encoder has a pure
"bytes it contributes" view.  The bridge lemmas below prove that the
state-threading functions equal `buffer ++ <pure view>`. -/

/-- Bytes contributed by `encode_len` to an empty buffer. -/
def lenBytes (n : Nat) : List Nat := encode_len [] n

/-- Trailing metadata written by the `Drop` implementations after the length:
the tag, its length and the ctx symbol when a tag is set, else the plain
symbol. -/
def tagSfx (tag : Option (List Nat)) (plain ctx : Nat) : List Nat :=
  match tag with
  | some t => t ++ lenBytes t.length ++ [ctx]
  | none => [plain]

mutual

/-- Pure view of `encodeValue`: the bytes one value contributes to the
stream. -/
def enc (tag : Option (List Nat)) : Value → List Nat
  | .leaf bs => bs ++ lenBytes bs.length ++ tagSfx tag LEAF LEAF_CTX
  | .list vs => encItems vs ++ lenBytes vs.length ++ tagSfx tag LIST LIST_CTX

/-- Pure view of `encodeListItems`: the concatenation of the items'
(untagged) encodings. -/
def encItems : List Value → List Nat
  | [] => []
  | v :: vs => enc none v ++ encItems vs

end

/-! ### Primitive canonicalization rules (`src/udigest/src/lib.rs`) -/

/-- Modelled from the spec: `EncodeValue::encode_leaf_value` is called from
`src/udigest/src/lib.rs` and `src/udigest/src/as_.rs` but its definition is
absent from the sources at hand.  Per the spec (leaf encoder contract, §4.2)
it encodes the given bytestring as one untagged leaf: the content is
forwarded to the buffer, then the length and the `LEAF` symbol follow. -/
def encode_leaf_value (buffer bytes : List Nat) : List Nat :=
  let s := EncodeLeaf.new
  let p := s.update buffer bytes
  p.2.drop p.1

/-- Function `encode_unsigned_integer` (`src/udigest/src/lib.rs`, lines 410-415):
strips the leading zero bytes of the big-endian representation and encodes
the rest as a leaf. -/
def encode_unsigned_integer (buffer be_bytes : List Nat) : List Nat :=
  encode_leaf_value buffer (stripLeadingZeros be_bytes)

/-- Function `encode_signed_integer` (`src/udigest/src/lib.rs`, lines 381-398):
strips the leading zero bytes of the big-endian magnitude; zero becomes the
empty leaf, any other value becomes a leaf holding one sign byte followed by
the stripped magnitude. -/
def encode_signed_integer (buffer : List Nat) (is_positive : Bool)
    (abs_be_bytes : List Nat) : List Nat :=
  let truncated := stripLeadingZeros abs_be_bytes
  if truncated.isEmpty then
    encode_leaf_value buffer []
  else
    let s := EncodeLeaf.new
    let p := s.update buffer [if is_positive then 1 else 0]
    let p := p.2.update p.1 truncated
    p.2.drop p.1

/-- The `Digestable` implementation for a `w`-byte unsigned integer
(`digestable_unsigned_integers`): `encode_unsigned_integer(&self.to_be_bytes(),
encoder)`. -/
def encodeUnsigned (w : Nat) (v : Nat) (buffer : List Nat) : List Nat :=
  encode_unsigned_integer buffer (toBeBytes w v)

/-- The `Digestable` implementation for a `w`-byte signed integer
(`digestable_signed_integers`): `encode_signed_integer(self.is_positive(),
&self.unsigned_abs().to_be_bytes(), encoder)`. -/
def encodeSigned (w : Nat) (v : Int) (buffer : List Nat) : List Nat :=
  encode_signed_integer buffer (decide (0 < v)) (toBeBytes w v.natAbs)

/-- The `Digestable` implementation for `bool`: encodes `u8::from(self)`. -/
def encodeBool (b : Bool) (buffer : List Nat) : List Nat :=
  encodeUnsigned 1 (if b then 1 else 0) buffer

/-- The `Digestable` implementation for `str` and other byte-convertible
types (`digestable_as_bytes`): a leaf holding the raw bytes. -/
def encodeStr (bytes : List Nat) (buffer : List Nat) : List Nat :=
  let s := EncodeLeaf.new
  let p := s.update buffer bytes
  p.2.drop p.1

/-- The `Digestable` implementation for the `Bytes` wrapper
(`src/udigest/src/lib.rs`, lines 360-364): `encode_leaf_value` of the raw
bytes. -/
def encodeBytesWrapper (bytes : List Nat) (buffer : List Nat) : List Nat :=
  encode_leaf_value buffer bytes

/-! ### Size discipline

In Rust every slice length and item count is a `usize`, hence below
`2 ^ 64`.  A Lean `Value` whose lengths all satisfy this bound corresponds to
a representable Rust value. -/

mutual

/-- Every bytestring length and list length in the tree fits in a `usize`. -/
def Value.okB : Value → Bool
  | .leaf bs => decide (bs.length < USIZE_BOUND)
  | .list vs => decide (vs.length < USIZE_BOUND) && allOkB vs

/-- All values of the list satisfy `Value.okB`. -/
def allOkB : List Value → Bool
  | [] => true
  | v :: vs => v.okB && allOkB vs

end

/-! ### Minimal big-endian representation -/

/-- Fuel-driven helper for `natToBE`; the fuel only bounds the recursion
depth, any fuel of at least `n` computes the digits of `n`. -/
def natToBEAux : Nat → Nat → List Nat
  | _, 0 => []
  | 0, _ + 1 => []
  | f + 1, m + 1 => natToBEAux f ((m + 1) / 256) ++ [(m + 1) % 256]

/-- Minimal big-endian byte representation of a natural number: no leading
zero byte, `0` maps to the empty list. -/
def natToBE (n : Nat) : List Nat := natToBEAux n n

/-- Value denoted by a big-endian byte list. -/
def beVal (bs : List Nat) : Nat :=
  bs.foldl (fun a b => a * 256 + b) 0

/-! ### Variable-output hashing (`src/udigest/src/lib.rs`, lines 310-320)

The `digest` crate is an external collaborator; its `VariableOutput`
interface is modelled by an algorithm with a set of supported output sizes, a
hasher state recording the size chosen at construction time, and a
finalization that only accepts a buffer of exactly that size. -/

/-- The typed error `digest::InvalidOutputSize`. -/
structure InvalidOutputSize where

/-- A variable-output hash algorithm: which output sizes it supports and the
digest it computes for given input bytes and output size. -/
structure VofAlgo where
  validSize : Nat → Bool
  digestAt : List Nat → Nat → List Nat

/-- A constructed variable-output hasher: the algorithm, the output size
requested at construction and the absorbed bytes. -/
structure VofHasher where
  algo : VofAlgo
  outputSize : Nat
  data : List Nat

/-- Builds `VariableOutput::new(output_size)`: fails with
`InvalidOutputSize` exactly when the algorithm does not support the size. -/
def VofAlgo.new (A : VofAlgo) (size : Nat) :
    Except InvalidOutputSize VofHasher :=
  if A.validSize size then .ok { algo := A, outputSize := size, data := [] }
  else .error {}

/-- Builds `Update::update`: absorbs bytes (this is the `Buffer` the encoders
write through, via the `BufferUpdate` shim). -/
def VofHasher.update (h : VofHasher) (bytes : List Nat) : VofHasher :=
  { h with data := h.data ++ bytes }

/-- Builds `VariableOutput::finalize_variable(out)`: fails when the supplied
output buffer length differs from the size fixed at construction. -/
def VofHasher.finalize_variable (h : VofHasher) (outLen : Nat) :
    Except InvalidOutputSize (List Nat) :=
  if outLen = h.outputSize then .ok (h.algo.digestAt h.data outLen)
  else .error {}

/-- Function `hash_vof` (`src/udigest/src/lib.rs`, lines 310-320): constructs the
hasher with `D::new(out.len())`, encodes the value through it and finalizes
into the same `out` buffer, mapping any finalization error to
`InvalidOutputSize`. -/
def hash_vof (A : VofAlgo) (v : Value) (outLen : Nat) :
    Except InvalidOutputSize (List Nat) :=
  match A.new outLen with
  | .error e => .error e
  | .ok h =>
    let h := h.update (encodeValue [] none v)
    match h.finalize_variable outLen with
    | .error _ => .error {}
    | .ok out => .ok out

/-! ### Top-level header tag -/

/-- Bytes of the ASCII string `udigest.header`. -/
def headerDomainTag : List Nat :=
  [117, 100, 105, 103, 101, 115, 116, 46, 104, 101, 97, 100, 101, 114]

/-- Bytes of the ASCII string `udigest_version`. -/
def versionFieldName : List Nat :=
  [117, 100, 105, 103, 101, 115, 116, 95, 118, 101, 114, 115, 105, 111, 110]

/-- Bytes of the ASCII string `1`, the version leaf. -/
def versionLeaf : List Nat := [49]

/-- Bytes of the ASCII string `tag`. -/
def tagFieldName : List Nat := [116, 97, 103]

/-- Modelled from the spec: the top-level header writer of the tagged hashing
entry points is absent from the sources at hand (only the untagged `hash`
functions appear in `src/udigest/src/lib.rs`).  Per the spec (§4.6 level 2 and
§6 header wire shape) it writes, through the same buffer, a struct with the
fixed field `udigest_version` holding the version leaf `1` and a field `tag`
holding the caller-supplied tag value, the struct itself carrying the domain
tag `udigest.header`.  A struct is an `EncodeList` receiving, per field, the
field-name leaf and the field value. -/
def encode_header (buffer : List Nat) (tagValue : Value) : List Nat :=
  let s := EncodeList.new.set_tag headerDomainTag
  let buffer := encodeValue buffer none (.leaf versionFieldName)
  let s := s.add_item
  let buffer := encodeValue buffer none (.leaf versionLeaf)
  let s := s.add_item
  let buffer := encodeValue buffer none (.leaf tagFieldName)
  let s := s.add_item
  let buffer := encodeValue buffer none tagValue
  let s := s.add_item
  s.drop buffer

/-- Modelled from the spec: the tagged hashing entry point writes the header
first, then encodes the main value through the same buffer. -/
def hash_with_header (tagValue mainValue : Value) (buffer : List Nat) :
    List Nat :=
  encodeValue (encode_header buffer tagValue) none mainValue

/-! ### Facts about byte representations -/

theorem toBeBytes_length (w n : Nat) : (toBeBytes w n).length = w := by
  induction w generalizing n with
  | zero => rfl
  | succ w ih => simp [toBeBytes, ih]

theorem beVal_concat (bs : List Nat) (b : Nat) :
    beVal (bs ++ [b]) = 256 * beVal bs + b := by
  simp [beVal, List.foldl_append, Nat.mul_comm]

theorem beVal_toBeBytes (w : Nat) :
    ∀ n, n < 256 ^ w → beVal (toBeBytes w n) = n := by
  induction w with
  | zero =>
    intro n hn
    interval_cases n
    rfl
  | succ w ih =>
    intro n hn
    have hdiv : n / 256 < 256 ^ w := by
      rw [Nat.div_lt_iff_lt_mul (by norm_num)]
      calc n < 256 ^ (w + 1) := hn
        _ = 256 ^ w * 256 := by rw [Nat.pow_succ]
    rw [toBeBytes, beVal_concat, ih _ hdiv]
    omega

theorem natToBEAux_fuel : ∀ (f1 n : Nat), n ≤ f1 → ∀ f2, n ≤ f2 →
    natToBEAux f1 n = natToBEAux f2 n := by
  intro f1
  induction f1 with
  | zero =>
    intro n hn f2 hn2
    interval_cases n
    cases f2 <;> rfl
  | succ f ih =>
    intro n hn f2 hn2
    cases n with
    | zero => cases f2 <;> rfl
    | succ m =>
      cases f2 with
      | zero => omega
      | succ f2' =>
        have hdiv : (m + 1) / 256 < m + 1 :=
          Nat.div_lt_self (by omega) (by decide)
        simp only [natToBEAux]
        congr 1
        exact ih ((m + 1) / 256) (by omega) f2' (by omega)

theorem natToBE_zero : natToBE 0 = [] := rfl

theorem natToBE_pos {n : Nat} (h : n ≠ 0) :
    natToBE n = natToBE (n / 256) ++ [n % 256] := by
  cases n with
  | zero => exact absurd rfl h
  | succ m =>
    have hdiv : (m + 1) / 256 < m + 1 :=
      Nat.div_lt_self (by omega) (by decide)
    show natToBEAux (m + 1) (m + 1)
        = natToBEAux ((m + 1) / 256) ((m + 1) / 256) ++ [(m + 1) % 256]
    simp only [natToBEAux]
    congr 1
    exact natToBEAux_fuel m ((m + 1) / 256) (by omega) ((m + 1) / 256)
      (Nat.le_refl _)

theorem natToBE_ne_nil {n : Nat} (h : n ≠ 0) : natToBE n ≠ [] := by
  rw [natToBE_pos h]
  simp

theorem beVal_natToBE : ∀ n, beVal (natToBE n) = n := by
  intro n
  induction n using Nat.strong_induction_on with
  | _ n ih =>
    rcases Nat.eq_zero_or_pos n with h0 | h0
    · subst h0
      rw [natToBE_zero]
      rfl
    · rw [natToBE_pos (Nat.pos_iff_ne_zero.mp h0), beVal_concat,
        ih (n / 256) (Nat.div_lt_self h0 (by decide))]
      omega

theorem natToBE_inj {a b : Nat} (h : natToBE a = natToBE b) : a = b := by
  have := congrArg beVal h
  rwa [beVal_natToBE, beVal_natToBE] at this

theorem stripLeadingZeros_append (xs ys : List Nat) :
    stripLeadingZeros (xs ++ ys) =
      if (stripLeadingZeros xs).isEmpty then stripLeadingZeros ys
      else stripLeadingZeros xs ++ ys := by
  simp only [stripLeadingZeros]
  exact List.dropWhile_append

theorem stripLeadingZeros_toBeBytes (w : Nat) :
    ∀ n, n < 256 ^ w → stripLeadingZeros (toBeBytes w n) = natToBE n := by
  induction w with
  | zero =>
    intro n hn
    interval_cases n
    simp [toBeBytes, stripLeadingZeros, natToBE_zero]
  | succ w ih =>
    intro n hn
    have hdiv : n / 256 < 256 ^ w := by
      rw [Nat.div_lt_iff_lt_mul (by norm_num)]
      calc n < 256 ^ (w + 1) := hn
        _ = 256 ^ w * 256 := by rw [Nat.pow_succ]
    have ihd := ih (n / 256) hdiv
    rw [toBeBytes, stripLeadingZeros_append]
    rcases Nat.eq_zero_or_pos n with h0 | h0
    · subst h0
      simp only [Nat.zero_div] at ihd
      rw [ihd, natToBE_zero]
      simp [stripLeadingZeros]
    · have hne : n ≠ 0 := Nat.pos_iff_ne_zero.mp h0
      rw [natToBE_pos hne, ihd]
      rcases Nat.eq_zero_or_pos (n / 256) with hq | hq
      · have hlt : n < 256 := by
          rcases Nat.lt_or_ge n 256 with h | h
          · exact h
          · exact absurd (Nat.div_pos h (by decide)) (by omega)
        have hmod : n % 256 = n := Nat.mod_eq_of_lt hlt
        rw [hq, natToBE_zero]
        simp [stripLeadingZeros, hmod, hne]
      · have hqne : n / 256 ≠ 0 := Nat.pos_iff_ne_zero.mp hq
        cases hL : natToBE (n / 256) with
        | nil => exact absurd hL (natToBE_ne_nil hqne)
        | cons a l => simp

theorem natToBE_length_le {w n : Nat} (h : n < 256 ^ w) :
    (natToBE n).length ≤ w := by
  rw [← stripLeadingZeros_toBeBytes w n h]
  calc (stripLeadingZeros (toBeBytes w n)).length
      ≤ (toBeBytes w n).length :=
        (List.dropWhile_sublist _).length_le
    _ = w := toBeBytes_length w n

/-! ### The length codec -/

theorem encode_len_eq (buffer : List Nat) (n : Nat) :
    encode_len buffer n = buffer ++ lenBytes n := by
  unfold lenBytes encode_len
  by_cases h : n ≤ 0xFFFFFFFF <;> simp [h]

theorem lenBytes_le {n : Nat} (h : n ≤ 0xFFFFFFFF) :
    lenBytes n = toBeBytes 4 n ++ [LEN_32] := by
  simp [lenBytes, encode_len, h]

theorem pow256_usize : (256 : Nat) ^ USIZE_BYTES = USIZE_BOUND := by
  norm_num [USIZE_BYTES, USIZE_BOUND]

theorem lenBytes_gt {n : Nat} (h1 : 0xFFFFFFFF < n) (h2 : n < USIZE_BOUND) :
    lenBytes n = natToBE n ++ [(natToBE n).length, BIGLEN] := by
  have hn : ¬n ≤ 0xFFFFFFFF := by omega
  have hb : n < 256 ^ USIZE_BYTES := by rw [pow256_usize]; exact h2
  simp only [lenBytes, encode_len, hn, if_false]
  rw [stripLeadingZeros_toBeBytes _ _ hb]
  simp

theorem concat_last_eq {xs ys : List Nat} {a b : Nat}
    (h : xs ++ [a] = ys ++ [b]) : a = b := by
  have h2 := congrArg List.getLast? h
  simpa [List.getLast?_concat] using h2

theorem lenBytes_suffix_det {n1 n2 : Nat} {s1 s2 : List Nat}
    (hb1 : n1 < USIZE_BOUND) (hb2 : n2 < USIZE_BOUND)
    (h : s1 ++ lenBytes n1 = s2 ++ lenBytes n2) : s1 = s2 ∧ n1 = n2 := by
  have h256 : (256 : Nat) ^ 4 = 4294967296 := by norm_num
  rcases le_or_lt n1 0xFFFFFFFF with hc1 | hc1 <;>
    rcases le_or_lt n2 0xFFFFFFFF with hc2 | hc2
  · rw [lenBytes_le hc1, lenBytes_le hc2, ← List.append_assoc,
      ← List.append_assoc] at h
    obtain ⟨h4, -⟩ := List.append_inj' h rfl
    obtain ⟨hs, hbe⟩ := List.append_inj' h4
      (by rw [toBeBytes_length, toBeBytes_length])
    refine ⟨hs, ?_⟩
    have e1 := beVal_toBeBytes 4 n1 (by omega)
    have e2 := beVal_toBeBytes 4 n2 (by omega)
    rw [← e1, ← e2, hbe]
  · rw [lenBytes_le hc1, lenBytes_gt hc2 hb2] at h
    rw [show [(natToBE n2).length, BIGLEN] = [(natToBE n2).length] ++ [BIGLEN]
      from rfl] at h
    simp only [← List.append_assoc] at h
    exact absurd (concat_last_eq h) (by decide)
  · rw [lenBytes_gt hc1 hb1, lenBytes_le hc2] at h
    rw [show [(natToBE n1).length, BIGLEN] = [(natToBE n1).length] ++ [BIGLEN]
      from rfl] at h
    simp only [← List.append_assoc] at h
    exact absurd (concat_last_eq h) (by decide)
  · rw [lenBytes_gt hc1 hb1, lenBytes_gt hc2 hb2] at h
    rw [show [(natToBE n1).length, BIGLEN] = [(natToBE n1).length] ++ [BIGLEN]
      from rfl] at h
    rw [show [(natToBE n2).length, BIGLEN] = [(natToBE n2).length] ++ [BIGLEN]
      from rfl] at h
    simp only [← List.append_assoc] at h
    obtain ⟨h6, -⟩ := List.append_inj' h rfl
    obtain ⟨h7, hk⟩ := List.append_inj' h6 rfl
    have hkk : (natToBE n1).length = (natToBE n2).length := by
      simpa using hk
    obtain ⟨hs, hA⟩ := List.append_inj' h7 hkk
    exact ⟨hs, natToBE_inj hA⟩

theorem tag_suffix_det {t1 t2 : List Nat} {s1 s2 : List Nat}
    (hb1 : t1.length < USIZE_BOUND) (hb2 : t2.length < USIZE_BOUND)
    (h : s1 ++ (t1 ++ lenBytes t1.length) = s2 ++ (t2 ++ lenBytes t2.length)) :
    s1 = s2 ∧ t1 = t2 := by
  rw [← List.append_assoc, ← List.append_assoc] at h
  obtain ⟨h1, hlen⟩ := lenBytes_suffix_det hb1 hb2 h
  exact List.append_inj' h1 hlen

/-! ### Bridge between the stateful encoders and the pure view -/

theorem encodeLeafSetTagOptNew (tag : Option (List Nat)) :
    EncodeLeaf.new.set_tag_opt tag = ⟨0, tag⟩ := by
  cases tag <;> rfl

theorem encodeListSetTagOptNew (tag : Option (List Nat)) :
    EncodeList.new.set_tag_opt tag = ⟨0, tag⟩ := by
  cases tag <;> rfl

theorem encodeLeafDrop_eq (len : Nat) (tag : Option (List Nat))
    (buffer : List Nat) :
    EncodeLeaf.drop ⟨len, tag⟩ buffer =
      buffer ++ lenBytes len ++ tagSfx tag LEAF LEAF_CTX := by
  cases tag <;>
    simp [EncodeLeaf.drop, encode_len_eq, tagSfx, List.append_assoc]

theorem encodeListDrop_eq (len : Nat) (tag : Option (List Nat))
    (buffer : List Nat) :
    EncodeList.drop ⟨len, tag⟩ buffer =
      buffer ++ lenBytes len ++ tagSfx tag LIST LIST_CTX := by
  cases tag <;>
    simp [EncodeList.drop, encode_len_eq, tagSfx, List.append_assoc]

mutual

theorem encodeValue_eq (buffer : List Nat) (tag : Option (List Nat)) :
    ∀ v : Value, encodeValue buffer tag v = buffer ++ enc tag v
  | .leaf bs => by
    rw [encodeValue]
    simp [encodeLeafSetTagOptNew, EncodeLeaf.update, encodeLeafDrop_eq,
      enc, List.append_assoc]
  | .list vs => by
    rw [encodeValue]
    simp only [encodeListSetTagOptNew, encodeListItems_eq buffer ⟨0, tag⟩ vs]
    simp [encodeListDrop_eq, enc, List.append_assoc]

theorem encodeListItems_eq (buffer : List Nat) (s : EncodeList) :
    ∀ vs : List Value,
      encodeListItems buffer s vs =
        (buffer ++ encItems vs, ⟨s.len + vs.length, s.tag⟩)
  | [] => by simp [encodeListItems, encItems]
  | v :: vs => by
    rw [encodeListItems]
    rw [encodeListItems_eq _ _ vs, encodeValue_eq buffer none v]
    simp [encItems, EncodeList.add_item, List.append_assoc]
    omega

end

/-! ### Suffix determinism of the untagged encoding

The grammar writes the length and type metadata after the content, so two
encodings can only be told apart from the end of the stream.  The key fact is
that the encoding of a value is determined by any common suffix position:
whenever `s1 ++ enc none v1 = s2 ++ enc none v2`, the two values (and the two
leading contexts) coincide. -/

theorem allOkB_append (xs ys : List Value) :
    allOkB (xs ++ ys) = (allOkB xs && allOkB ys) := by
  induction xs with
  | nil => simp [allOkB]
  | cons v vs ih => simp [allOkB, ih, Bool.and_assoc]

theorem encItems_append (xs ys : List Value) :
    encItems (xs ++ ys) = encItems xs ++ encItems ys := by
  induction xs with
  | nil => simp [encItems]
  | cons v vs ih => simp [encItems, ih, List.append_assoc]

theorem sizeOf_concat_value (xs : List Value) (x : Value) :
    sizeOf (xs ++ [x]) = sizeOf xs + sizeOf x + 1 := by
  induction xs with
  | nil => simp
  | cons a l ih => simp [ih]; omega

theorem sizeOf_reverse_value (xs : List Value) :
    sizeOf xs.reverse = sizeOf xs := by
  induction xs with
  | nil => rfl
  | cons a l ih =>
    rw [List.reverse_cons, sizeOf_concat_value, ih]
    simp
    omega

theorem allOkB_reverse (xs : List Value) :
    allOkB xs.reverse = allOkB xs := by
  induction xs with
  | nil => rfl
  | cons a l ih =>
    rw [List.reverse_cons, allOkB_append, ih]
    simp [allOkB, Bool.and_comm]

mutual

theorem enc_suffix_det : ∀ (v1 v2 : Value) (s1 s2 : List Nat),
    Value.okB v1 = true → Value.okB v2 = true →
    s1 ++ enc none v1 = s2 ++ enc none v2 → s1 = s2 ∧ v1 = v2
  | .leaf bs1, .leaf bs2, s1, s2 => by
    intro h1 h2 h
    simp only [Value.okB, decide_eq_true_eq] at h1 h2
    simp only [enc, tagSfx] at h
    simp only [← List.append_assoc] at h
    obtain ⟨h3, -⟩ := List.append_inj' h rfl
    obtain ⟨h4, hlen⟩ := lenBytes_suffix_det h1 h2 h3
    obtain ⟨hs, hbs⟩ := List.append_inj' h4 hlen
    exact ⟨hs, by rw [hbs]⟩
  | .leaf bs1, .list vs2, s1, s2 => by
    intro h1 h2 h
    simp only [enc, tagSfx] at h
    simp only [← List.append_assoc] at h
    exact absurd (concat_last_eq h) (by decide)
  | .list vs1, .leaf bs2, s1, s2 => by
    intro h1 h2 h
    simp only [enc, tagSfx] at h
    simp only [← List.append_assoc] at h
    exact absurd (concat_last_eq h) (by decide)
  | .list vs1, .list vs2, s1, s2 => by
    intro h1 h2 h
    simp only [Value.okB, Bool.and_eq_true, decide_eq_true_eq] at h1 h2
    simp only [enc, tagSfx] at h
    simp only [← List.append_assoc] at h
    obtain ⟨h3, -⟩ := List.append_inj' h rfl
    obtain ⟨h4, hlen⟩ := lenBytes_suffix_det h1.1 h2.1 h3
    have hok1 : allOkB vs1.reverse = true := by rw [allOkB_reverse]; exact h1.2
    have hok2 : allOkB vs2.reverse = true := by rw [allOkB_reverse]; exact h2.2
    have hlenr : vs1.reverse.length = vs2.reverse.length := by
      simpa using hlen
    have h4r : s1 ++ encItems vs1.reverse.reverse
        = s2 ++ encItems vs2.reverse.reverse := by
      simpa using h4
    obtain ⟨hs, hvs⟩ :=
      encItemsRev_suffix_det vs1.reverse vs2.reverse s1 s2 hok1 hok2 hlenr h4r
    refine ⟨hs, ?_⟩
    have := congrArg List.reverse hvs
    simpa using this
termination_by v1 v2 s1 s2 => sizeOf v1
decreasing_by
  all_goals simp_wf
  all_goals rw [sizeOf_reverse_value]
  all_goals omega

theorem encItemsRev_suffix_det : ∀ (rs1 rs2 : List Value) (s1 s2 : List Nat),
    allOkB rs1 = true → allOkB rs2 = true → rs1.length = rs2.length →
    s1 ++ encItems rs1.reverse = s2 ++ encItems rs2.reverse →
    s1 = s2 ∧ rs1 = rs2
  | [], [], s1, s2 => by
    intro h1 h2 hlen h
    simpa [encItems] using h
  | [], y :: ys, s1, s2 => by
    intro h1 h2 hlen h
    simp at hlen
  | x :: xs, [], s1, s2 => by
    intro h1 h2 hlen h
    simp at hlen
  | x :: xs, y :: ys, s1, s2 => by
    intro h1 h2 hlen h
    simp only [allOkB, Bool.and_eq_true] at h1 h2
    rw [List.reverse_cons, List.reverse_cons, encItems_append,
      encItems_append] at h
    simp only [encItems, List.append_nil] at h
    simp only [← List.append_assoc] at h
    obtain ⟨h3, hxy⟩ :=
      enc_suffix_det x y (s1 ++ encItems xs.reverse)
        (s2 ++ encItems ys.reverse) h1.1 h2.1 h
    obtain ⟨hs, hxs⟩ :=
      encItemsRev_suffix_det xs ys s1 s2 h1.2 h2.2 (by simpa using hlen) h3
    exact ⟨hs, by rw [hxs, hxy]⟩
termination_by rs1 rs2 s1 s2 => sizeOf rs1
decreasing_by
  all_goals simp_wf
  all_goals omega

end

/-! ### Leaf-value helpers -/

theorem encode_leaf_value_eq (buffer bytes : List Nat) :
    encode_leaf_value buffer bytes =
      buffer ++ bytes ++ lenBytes bytes.length ++ [LEAF] := by
  show EncodeLeaf.drop ⟨0 + bytes.length, none⟩ (buffer ++ bytes) = _
  rw [encodeLeafDrop_eq]
  simp [tagSfx, List.append_assoc]

theorem lenBytes_zero : lenBytes 0 = [0, 0, 0, 0, LEN_32] := by decide

theorem encode_signed_integer_eq (buffer : List Nat) (p : Bool)
    (bs : List Nat) :
    encode_signed_integer buffer p bs =
      if stripLeadingZeros bs = [] then encode_leaf_value buffer []
      else
        encode_leaf_value buffer
          ((if p then 1 else 0) :: stripLeadingZeros bs) := by
  unfold encode_signed_integer
  by_cases h : stripLeadingZeros bs = []
  · simp [h]
  · rw [if_neg h, if_neg (by simpa [List.isEmpty_iff] using h)]
    show EncodeLeaf.drop
        ⟨0 + 1 + (stripLeadingZeros bs).length, none⟩
        (buffer ++ [if p then 1 else 0] ++ stripLeadingZeros bs) = _
    rw [encodeLeafDrop_eq, encode_leaf_value_eq]
    simp [List.append_assoc, tagSfx, Nat.add_comm]

theorem encodeUnsigned_eq {w v : Nat} (buffer : List Nat)
    (h : v < 256 ^ w) :
    encodeUnsigned w v buffer = encode_leaf_value buffer (natToBE v) := by
  unfold encodeUnsigned encode_unsigned_integer
  rw [stripLeadingZeros_toBeBytes w v h]

theorem encodeUnsigned_zero (w : Nat) (buffer : List Nat) :
    encodeUnsigned w 0 buffer = buffer ++ [0, 0, 0, 0, LEN_32, LEAF] := by
  rw [encodeUnsigned_eq buffer (Nat.pos_pow_of_pos w (by decide)),
    natToBE_zero, encode_leaf_value_eq]
  simp [lenBytes_zero]

theorem tag_block_inj {t1 t2 : List Nat} {c : Nat}
    (hb1 : t1.length < USIZE_BOUND) (hb2 : t2.length < USIZE_BOUND)
    (h : t1 ++ lenBytes t1.length ++ [c] = t2 ++ lenBytes t2.length ++ [c]) :
    t1 = t2 := by
  obtain ⟨h1, -⟩ := List.append_inj' h rfl
  have h2 : ([] : List Nat) ++ (t1 ++ lenBytes t1.length)
      = [] ++ (t2 ++ lenBytes t2.length) := by
    simpa [List.append_assoc] using h1
  exact (tag_suffix_det hb1 hb2 h2).2

/-! ### Claims -/

/-- C1: Injectivity of the untagged encoding: for every two distinct
`Value`s (trees built from leaf bytestrings and ordered lists, with no
domain tags) whose lengths are representable, encoding each into an
initially empty buffer produces distinct byte streams. -/
theorem claim_C1_untagged_encoding_injective (v1 v2 : Value)
    (h1 : Value.okB v1 = true) (h2 : Value.okB v2 = true) (hne : v1 ≠ v2) :
    encodeValue [] none v1 ≠ encodeValue [] none v2 := by
  intro h
  rw [encodeValue_eq, encodeValue_eq] at h
  obtain ⟨-, hv⟩ := enc_suffix_det v1 v2 [] [] h1 h2 (by simpa using h)
  exact hne hv

/-- C1 witness: the encoding of the list of bytestrings `12`, `3` differs
from that of `1`, `23`; the encoding of `1`, `[]`, `2` differs from that of
`1`, `2`. -/
theorem claim_C1_witness :
    encodeValue [] none (.list [.leaf [49, 50], .leaf [51]]) ≠
      encodeValue [] none (.list [.leaf [49], .leaf [50, 51]]) ∧
    encodeValue [] none (.list [.leaf [49], .list [], .leaf [50]]) ≠
      encodeValue [] none (.list [.leaf [49], .leaf [50]]) :=
  ⟨claim_C1_untagged_encoding_injective _ _ (by decide) (by decide) (by simp),
   claim_C1_untagged_encoding_injective _ _ (by decide) (by decide) (by simp)⟩

/-- C2: for every representable length `n`, `encode_len` appends exactly: if
`n` is at most `0xFFFFFFFF`, the 4-byte big-endian form of `n` followed by
the tag `LEN_32` (5 bytes total); otherwise the big-endian bytes of `n` with
leading zero bytes stripped, their one-byte count, and the tag `BIGLEN`. -/
theorem claim_C2_encode_len_spec (buffer : List Nat) (n : Nat)
    (hn : n < USIZE_BOUND) :
    (n ≤ 0xFFFFFFFF →
      encode_len buffer n = buffer ++ toBeBytes 4 n ++ [LEN_32] ∧
      (toBeBytes 4 n ++ [LEN_32]).length = 5) ∧
    (0xFFFFFFFF < n →
      encode_len buffer n
          = buffer ++ natToBE n ++ [(natToBE n).length, BIGLEN] ∧
      (natToBE n).length < 256) := by
  constructor
  · intro h
    rw [encode_len_eq, lenBytes_le h]
    simp [toBeBytes_length]
  · intro h
    rw [encode_len_eq, lenBytes_gt h hn]
    refine ⟨by simp [List.append_assoc], ?_⟩
    have hle := natToBE_length_le (w := USIZE_BYTES)
      (by rw [pow256_usize]; exact hn)
    simp only [USIZE_BYTES] at hle
    omega

/-- C2 witness: `0xFFFFFFFF` takes the `LEN_32` form; `0x100000000` takes
the `BIGLEN` form with exactly 5 content bytes, length byte `5` and tag
`BIGLEN`. -/
theorem claim_C2_witness :
    encode_len [] 0xFFFFFFFF = [255, 255, 255, 255, LEN_32] ∧
    encode_len [] 0x100000000
        = natToBE 0x100000000 ++ [(natToBE 0x100000000).length, BIGLEN] ∧
    natToBE 0x100000000 = [1, 0, 0, 0, 0] ∧
    (natToBE 0x100000000).length = 5 := by
  have h1 := (claim_C2_encode_len_spec [] 0xFFFFFFFF
    (by norm_num [USIZE_BOUND])).1 (by norm_num)
  have h2 := (claim_C2_encode_len_spec [] 0x100000000
    (by norm_num [USIZE_BOUND])).2 (by norm_num)
  refine ⟨?_, by simpa using h2.1, by decide, by decide⟩
  rw [h1.1]
  decide

/-- C3: encoding the 3-item list of `1234`, the 2-item sublist of `1` and
`2`, and `abc` (no tags) into an empty buffer produces exactly the byte
stream of the repository test `simple_encoding`. -/
theorem claim_C3_simple_encoding :
    encodeValue [] none
        (.list [.leaf [49, 50, 51, 52],
                .list [.leaf [49], .leaf [50]],
                .leaf [97, 98, 99]]) =
      [49, 50, 51, 52, 0, 0, 0, 4, LEN_32, LEAF,
       49, 0, 0, 0, 1, LEN_32, LEAF,
       50, 0, 0, 0, 1, LEN_32, LEAF,
       0, 0, 0, 2, LEN_32, LIST,
       97, 98, 99, 0, 0, 0, 3, LEN_32, LEAF,
       0, 0, 0, 3, LEN_32, LIST] := by
  decide

/-- C4: a nonzero signed integer encodes as a leaf holding one sign byte
(`1` for non-negative, `0` for negative) followed by the big-endian bytes of
the magnitude with leading zeroes stripped; zero encodes as the empty leaf
with no sign byte; `-1` and `1` encode differently; and the signed leaf
content is the unsigned leaf content of the magnitude with exactly one extra
leading sign byte. -/
theorem claim_C4_signed_integer_encoding (w : Nat) (v : Int)
    (buffer : List Nat) (hw : 0 < w) (hv : v.natAbs < 256 ^ w) :
    (v ≠ 0 →
      encodeSigned w v buffer =
        encode_leaf_value buffer
          ((if 0 ≤ v then 1 else 0) :: natToBE v.natAbs) ∧
      encodeUnsigned w v.natAbs buffer =
        encode_leaf_value buffer (natToBE v.natAbs)) ∧
    (v = 0 → encodeSigned w v buffer = encode_leaf_value buffer []) ∧
    encodeSigned w (-1) buffer ≠ encodeSigned w 1 buffer := by
  have hstrip : stripLeadingZeros (toBeBytes w v.natAbs) = natToBE v.natAbs :=
    stripLeadingZeros_toBeBytes w _ hv
  have hone : (1 : Nat) < 256 ^ w := Nat.one_lt_pow (by omega) (by decide)
  refine ⟨?_, ?_, ?_⟩
  · intro hne
    have habs : v.natAbs ≠ 0 := Int.natAbs_ne_zero.mpr hne
    refine ⟨?_, encodeUnsigned_eq buffer hv⟩
    unfold encodeSigned
    rw [encode_signed_integer_eq, hstrip, if_neg (natToBE_ne_nil habs)]
    congr 2
    simp only [decide_eq_true_eq]
    exact if_congr (by omega) rfl rfl
  · intro h0
    subst h0
    unfold encodeSigned
    rw [encode_signed_integer_eq]
    simp only [Int.natAbs_zero] at hstrip
    rw [natToBE_zero] at hstrip
    simp [hstrip]
  · have em : encodeSigned w (-1) buffer = encode_leaf_value buffer [0, 1] := by
      unfold encodeSigned
      rw [show ((-1 : Int)).natAbs = 1 from rfl,
        encode_signed_integer_eq, stripLeadingZeros_toBeBytes w 1 hone,
        show natToBE 1 = [1] from rfl]
      simp
    have ep : encodeSigned w 1 buffer = encode_leaf_value buffer [1, 1] := by
      unfold encodeSigned
      rw [show ((1 : Int)).natAbs = 1 from rfl,
        encode_signed_integer_eq, stripLeadingZeros_toBeBytes w 1 hone,
        show natToBE 1 = [1] from rfl]
      simp
    intro heq
    rw [em, ep, encode_leaf_value_eq, encode_leaf_value_eq] at heq
    simp [List.append_assoc] at heq

/-- C4 witness: `5`, `-5` and `0` as 32-bit signed integers encode as the
claimed leaves, and `-1` differs from `1`. -/
theorem claim_C4_witness :
    encodeSigned 4 5 [] = encode_leaf_value [] [1, 5] ∧
    encodeSigned 4 (-5) [] = encode_leaf_value [] [0, 5] ∧
    encodeSigned 4 0 [] = encode_leaf_value [] [] ∧
    encodeSigned 4 (-1) [] ≠ encodeSigned 4 1 [] := by
  have hp := claim_C4_signed_integer_encoding 4 5 [] (by decide) (by decide)
  have hm := claim_C4_signed_integer_encoding 4 (-5) [] (by decide) (by decide)
  have hz := claim_C4_signed_integer_encoding 4 0 [] (by decide) (by decide)
  refine ⟨?_, ?_, hz.2.1 rfl, hp.2.2⟩
  · rw [(hp.1 (by decide)).1]
    decide
  · rw [(hm.1 (by decide)).1]
    decide

/-- C5: an unsigned integer encodes as a leaf holding its big-endian bytes
with leading zeroes stripped, zero encodes as the empty leaf, and the
encoding does not depend on the storage width. -/
theorem claim_C5_unsigned_integer_encoding (w1 w2 v : Nat)
    (buffer : List Nat) (h1 : v < 256 ^ w1) (h2 : v < 256 ^ w2) :
    encodeUnsigned w1 v buffer = encode_leaf_value buffer (natToBE v) ∧
    encodeUnsigned w1 v buffer = encodeUnsigned w2 v buffer ∧
    encodeUnsigned w1 0 buffer = encode_leaf_value buffer [] := by
  refine ⟨encodeUnsigned_eq buffer h1, ?_, ?_⟩
  · rw [encodeUnsigned_eq buffer h1, encodeUnsigned_eq buffer h2]
  · rw [encodeUnsigned_zero, encode_leaf_value_eq]
    simp [lenBytes_zero]

/-- C5 witness: `1000` as a 16-bit and as a 64-bit unsigned integer encodes
to exactly the same leaf, whose content is the two bytes `3`, `232`. -/
theorem claim_C5_witness :
    encodeUnsigned 2 1000 [] = encodeUnsigned 8 1000 [] ∧
    encodeUnsigned 2 1000 [] = encode_leaf_value [] [3, 232] := by
  have h := claim_C5_unsigned_integer_encoding 2 8 1000 []
    (by norm_num) (by norm_num)
  refine ⟨h.2.1, ?_⟩
  rw [h.1]
  decide

/-- C6: encoding the same value under two distinct domain tags produces two
distinct byte streams, and encoding under a non-empty tag differs from
encoding with no tag. -/
theorem claim_C6_tag_effect :
    (∀ (v : Value) (t1 t2 buffer : List Nat),
      t1.length < USIZE_BOUND → t2.length < USIZE_BOUND → t1 ≠ t2 →
      encodeValue buffer (some t1) v ≠ encodeValue buffer (some t2) v) ∧
    (∀ (v : Value) (t buffer : List Nat), t ≠ [] →
      encodeValue buffer (some t) v ≠ encodeValue buffer none v) := by
  constructor
  · intro v t1 t2 buffer hb1 hb2 hne heq
    rw [encodeValue_eq, encodeValue_eq] at heq
    have h := List.append_cancel_left heq
    cases v with
    | leaf bs =>
      simp only [enc, tagSfx] at h
      exact hne (tag_block_inj hb1 hb2 (List.append_cancel_left h))
    | list vs =>
      simp only [enc, tagSfx] at h
      exact hne (tag_block_inj hb1 hb2 (List.append_cancel_left h))
  · intro v t buffer ht heq
    rw [encodeValue_eq, encodeValue_eq] at heq
    have h := List.append_cancel_left heq
    cases v with
    | leaf bs =>
      simp only [enc, tagSfx] at h
      have h2 := List.append_cancel_left h
      have h3 := congrArg List.getLast? h2
      simp [List.getLast?_concat, LEAF, LEAF_CTX] at h3
    | list vs =>
      simp only [enc, tagSfx] at h
      have h2 := List.append_cancel_left h
      have h3 := congrArg List.getLast? h2
      simp [List.getLast?_concat, LIST, LIST_CTX] at h3

/-- C6 witness: the leaf `1` under tag `A` differs from the same leaf under
tag `B`, and from the same leaf with no tag. -/
theorem claim_C6_witness :
    encodeValue [] (some [65]) (.leaf [49]) ≠
      encodeValue [] (some [66]) (.leaf [49]) ∧
    encodeValue [] (some [65]) (.leaf [49]) ≠
      encodeValue [] none (.leaf [49]) :=
  ⟨claim_C6_tag_effect.1 _ [65] [66] [] (by decide) (by decide) (by decide),
   claim_C6_tag_effect.2 _ [65] [] (by decide)⟩

/-- C7: the tagged hashing entry point writes, through the same buffer and
before the main value, a header that is exactly the encoding of the struct
with field `udigest_version` holding the version leaf `1` and field `tag`
holding the caller-supplied tag value, under the domain tag
`udigest.header`. -/
theorem claim_C7_header_shape (tagValue mainValue : Value)
    (buffer : List Nat) :
    hash_with_header tagValue mainValue buffer =
      buffer ++
        enc (some headerDomainTag)
          (.list [.leaf versionFieldName, .leaf versionLeaf,
                  .leaf tagFieldName, tagValue]) ++
        enc none mainValue := by
  unfold hash_with_header encode_header
  simp [encodeValue_eq, EncodeList.new, EncodeList.set_tag,
    EncodeList.add_item, encodeListDrop_eq, enc, encItems, tagSfx,
    List.append_assoc]

/-- C8: `hash_vof` returns the typed `InvalidOutputSize` error exactly when
the requested output length is unsupported by the algorithm, and returns the
digest of the canonical encoding for every supported length (the second
finalization error path is unreachable). -/
theorem claim_C8_hash_vof (A : VofAlgo) (v : Value) (outLen : Nat) :
    hash_vof A v outLen =
      if A.validSize outLen then
        Except.ok (A.digestAt (encodeValue [] none v) outLen)
      else Except.error {} := by
  unfold hash_vof VofAlgo.new VofHasher.update VofHasher.finalize_variable
  by_cases h : A.validSize outLen <;> simp [h]

/-- C9: unsigned zero at every width, signed zero at every width, the boolean
`false`, the empty string and the empty byte string all encode to exactly the
six bytes `0 0 0 0 LEN_32 LEAF` appended to the buffer. -/
theorem claim_C9_zero_cross_type_collision (w1 w2 : Nat)
    (buffer : List Nat) :
    encodeUnsigned w1 0 buffer = buffer ++ [0, 0, 0, 0, LEN_32, LEAF] ∧
    encodeSigned w2 0 buffer = buffer ++ [0, 0, 0, 0, LEN_32, LEAF] ∧
    encodeBool false buffer = buffer ++ [0, 0, 0, 0, LEN_32, LEAF] ∧
    encodeStr [] buffer = buffer ++ [0, 0, 0, 0, LEN_32, LEAF] ∧
    encodeBytesWrapper [] buffer = buffer ++ [0, 0, 0, 0, LEN_32, LEAF] := by
  refine ⟨encodeUnsigned_zero w1 buffer, ?_, ?_, ?_, ?_⟩
  · unfold encodeSigned
    rw [encode_signed_integer_eq]
    have hs : stripLeadingZeros (toBeBytes w2 (Int.natAbs 0)) = [] := by
      rw [show Int.natAbs 0 = 0 from rfl,
        stripLeadingZeros_toBeBytes w2 0 (Nat.pos_pow_of_pos w2 (by decide)),
        natToBE_zero]
    rw [if_pos hs, encode_leaf_value_eq]
    simp [lenBytes_zero]
  · show encodeUnsigned 1 0 buffer = _
    exact encodeUnsigned_zero 1 buffer
  · unfold encodeStr
    show EncodeLeaf.drop ⟨0 + 0, none⟩ (buffer ++ []) = _
    rw [encodeLeafDrop_eq]
    simp [tagSfx, lenBytes_zero]
  · rw [show encodeBytesWrapper [] buffer = encode_leaf_value buffer []
      from rfl, encode_leaf_value_eq]
    simp [lenBytes_zero]

/-- C10: a positive signed integer encodes byte-identically to the unsigned
integer whose stripped big-endian representation is the byte `1` followed by
the stripped big-endian bytes of the magnitude. -/
theorem claim_C10_signed_unsigned_cross_collision (w wu : Nat) (v : Int)
    (u : Nat) (buffer : List Nat) (hv : 0 < v) (hvw : v.natAbs < 256 ^ w)
    (hu : u < 256 ^ wu) (hrep : natToBE u = 1 :: natToBE v.natAbs) :
    encodeSigned w v buffer = encodeUnsigned wu u buffer := by
  have habs : v.natAbs ≠ 0 := Int.natAbs_ne_zero.mpr (by omega)
  unfold encodeSigned
  rw [encode_signed_integer_eq, stripLeadingZeros_toBeBytes w _ hvw,
    if_neg (natToBE_ne_nil habs), encodeUnsigned_eq buffer hu, hrep]
  congr 2
  simp [hv]

/-- C10 witness: the 32-bit signed integer `1` and the 32-bit unsigned
integer `257` encode to exactly the same byte stream. -/
theorem claim_C10_witness :
    encodeSigned 4 1 [] = encodeUnsigned 4 257 [] ∧
    encodeSigned 4 1 [] = [1, 1, 0, 0, 0, 2, LEN_32, LEAF] := by
  refine ⟨claim_C10_signed_unsigned_cross_collision 4 4 1 257 []
    (by decide) (by decide) (by decide) (by decide), ?_⟩
  decide

end Udigest
